import Mathlib

/-!
Shallow embedding of `api-key-pool-rs` (src/src/lib.rs).

Timestamps (`chrono::DateTime<Utc>`) are modelled as `Int`; durations
(`chrono::Duration`) as `Int` (they may be negative, as in chrono).
The `BinaryHeap<Reverse<DateTime<Utc>>>` of usage times is a min-heap,
i.e. a multiset from which `peek` reads the minimum and `pop` removes
one occurrence of the minimum; we model it as a `List Int` with
explicit `heapPeek` / `heapPop` operations.  Each `Mutex`-guarded
operation of the source becomes a pure state-passing function; `now`
(`Utc::now()`) is an explicit parameter.
-/

namespace APIKeyPoolRs

/-- `RateLimitPolicy` (lib.rs:150-155): `count: usize`, `per: chrono::Duration`. -/
structure RateLimitPolicy where
  count : Nat
  per : Int
deriving DecidableEq, Repr

/-- `RateLimitPolicy::new` (lib.rs:164-166): stores both fields verbatim, no checks. -/
def RateLimitPolicy.new (count : Nat) (per : Int) : RateLimitPolicy :=
  { count := count, per := per }

/-- `BinaryHeap<Reverse<DateTime<Utc>>>::peek`: the minimum timestamp, if any. -/
def heapPeek : List Int → Option Int
  | [] => none
  | x :: xs =>
    match heapPeek xs with
    | none => some x
    | some m => some (min x m)

/-- Remove one occurrence of `m` from the list (multiset removal). -/
def removeOne (m : Int) : List Int → List Int
  | [] => []
  | x :: xs => if x = m then xs else x :: removeOne m xs

/-- `BinaryHeap<Reverse<DateTime<Utc>>>::pop`: remove one occurrence of the minimum. -/
def heapPop (l : List Int) : List Int :=
  match heapPeek l with
  | none => l
  | some m => removeOne m l

/-- `APIKey` (lib.rs:91-98): identifier string, policy, and the heap of usage times. -/
structure APIKey where
  key : String
  policy : RateLimitPolicy
  times : List Int
deriving DecidableEq, Repr

/-- `APIKey::new` (lib.rs:107-116): empty usage history. -/
def APIKey.new (key : String) (policy : RateLimitPolicy) : APIKey :=
  { key := key, policy := policy, times := [] }

/-- `APIKey::get_key` (lib.rs:119-121). -/
def APIKey.get_key (k : APIKey) : String :=
  k.key

/-- `APIKey::is_ready` (lib.rs:124-136): ready when fewer than `count` recorded
uses, or when the oldest recorded use (the heap minimum) is older than
`now - per`. -/
def APIKey.is_ready (k : APIKey) (now : Int) : Bool :=
  if k.times.length < k.policy.count then
    true
  else
    match heapPeek k.times with
    | some oldest => decide (oldest < now - k.policy.per)
    | none => false

/-- `APIKey::use_key` (lib.rs:139-145): if at (or above) capacity pop the oldest
time, push `now`, return the identifier. -/
def APIKey.use_key (k : APIKey) (now : Int) : String × APIKey :=
  let t1 := if k.policy.count ≤ k.times.length then heapPop k.times else k.times
  (k.key, { k with times := now :: t1 })

/-- `APIKeyPool` (lib.rs:56-59): ordered sequence of keys. -/
structure APIKeyPool where
  api_keys : List APIKey
deriving DecidableEq, Repr

/-- `APIKeyPool::new` (lib.rs:63-67). -/
def APIKeyPool.new : APIKeyPool :=
  { api_keys := [] }

/-- `APIKeyPool::add_key` (lib.rs:74-76): append at the end. -/
def APIKeyPool.add_key (p : APIKeyPool) (k : APIKey) : APIKeyPool :=
  { api_keys := p.api_keys ++ [k] }

/-- Body of the loop in `APIKeyPool::poll_for_key` (lib.rs:81-85): scan the keys
in order; the first ready key is used in place and its identifier returned. -/
def pollKeys : List APIKey → Int → Option String × List APIKey
  | [], _ => (none, [])
  | k :: ks, now =>
    if k.is_ready now then
      let r := k.use_key now
      (some r.1, r.2 :: ks)
    else
      let r := pollKeys ks now
      (r.1, k :: r.2)

/-- `APIKeyPool::poll_for_key` (lib.rs:79-87). -/
def APIKeyPool.poll_for_key (p : APIKeyPool) (now : Int) : Option String × APIKeyPool :=
  let r := pollKeys p.api_keys now
  (r.1, { api_keys := r.2 })

/-- Index of the first ready key, if any (derived notion used to state frame
properties of `poll_for_key`). -/
def firstReadyIdx : List APIKey → Int → Option Nat
  | [], _ => none
  | k :: ks, now =>
    if k.is_ready now then some 0
    else (firstReadyIdx ks now).map (· + 1)

/-- Repeated raw `use_key` calls at the given times (for the history-size
invariant). -/
def iterUses : APIKey → List Int → APIKey
  | k, [] => k
  | k, now :: rest => iterUses (k.use_key now).2 rest

/-- One serialized `poll_for_key` round against a single key, repeated over a
list of times: each round atomically checks `is_ready` and, on success, calls
`use_key` and records the pushed timestamp.  Returns the final key state and
the recorded times of the successful uses.  (In the source every access to a
key's history happens inside `poll_for_key`, which holds the pool mutex for
its whole scan, so any concurrent execution is equivalent to such a serialized
sequence of rounds.) -/
def runPolls : APIKey → List Int → APIKey × List Int
  | k, [] => (k, [])
  | k, now :: rest =>
    if k.is_ready now then
      let r := runPolls (k.use_key now).2 rest
      (r.1, now :: r.2)
    else
      runPolls k rest

/-- A serialized sequence of `poll_for_key` calls on a pool: the resulting
pool state. -/
def runPoolPolls : APIKeyPool → List Int → APIKeyPool
  | p, [] => p
  | p, now :: rest => runPoolPolls (p.poll_for_key now).2 rest

/-- A serialized sequence of `poll_for_key` calls on a pool: the list of
returned results. -/
def runPoolResults : APIKeyPool → List Int → List (Option String)
  | _, [] => []
  | p, now :: rest =>
    (p.poll_for_key now).1 :: runPoolResults (p.poll_for_key now).2 rest

/-- Number of recorded uses falling in the half-open window `(t, t + per]`. -/
def windowCount (t per : Int) (uses : List Int) : Nat :=
  (uses.filter (fun s => decide (t < s ∧ s ≤ t + per))).length

/-- Number of recorded times strictly above `t` (potential in-window heap
entries). -/
def phi (t : Int) (l : List Int) : Nat :=
  (l.filter (fun x => decide (t < x))).length

/-! ### Lemmas about the heap model -/

theorem heapPeek_eq_none (l : List Int) (h : heapPeek l = none) : l = [] := by
  cases l with
  | nil => rfl
  | cons x xs =>
    exfalso
    unfold heapPeek at h
    cases hx : heapPeek xs <;> simp [hx] at h

theorem heapPeek_mem : ∀ {l : List Int} {m : Int}, heapPeek l = some m → m ∈ l := by
  intro l
  induction l with
  | nil => intro m h; simp [heapPeek] at h
  | cons x xs ih =>
    intro m h
    unfold heapPeek at h
    cases hx : heapPeek xs with
    | none => simp [hx] at h; simp [h]
    | some m' =>
      simp [hx] at h
      rcases le_total x m' with hle | hle
      · simp [min_eq_left hle] at h; simp [h]
      · simp [min_eq_right hle] at h
        exact List.mem_cons_of_mem _ (h ▸ ih hx)

theorem heapPeek_le : ∀ {l : List Int} {m : Int}, heapPeek l = some m →
    ∀ x ∈ l, m ≤ x := by
  intro l
  induction l with
  | nil => simp
  | cons x xs ih =>
    intro m h
    unfold heapPeek at h
    cases hx : heapPeek xs with
    | none =>
      simp [hx] at h
      have hxs := heapPeek_eq_none xs hx
      subst hxs
      simp [h]
    | some m' =>
      simp [hx] at h
      intro y hy
      rcases List.mem_cons.mp hy with hy | hy
      · subst hy; rw [← h]; exact min_le_left _ _
      · calc m ≤ m' := h ▸ min_le_right x m'
          _ ≤ y := ih hx y hy

theorem length_removeOne {l : List Int} {m : Int} (h : m ∈ l) :
    (removeOne m l).length + 1 = l.length := by
  induction l with
  | nil => simp at h
  | cons x xs ih =>
    unfold removeOne
    by_cases hx : x = m
    · simp [hx]
    · have hm : m ∈ xs := by
        rcases List.mem_cons.mp h with h | h
        · exact absurd h.symm hx
        · exact h
      simp [hx, ← ih hm]

theorem phi_cons (t x : Int) (l : List Int) :
    phi t (x :: l) = (if t < x then 1 else 0) + phi t l := by
  simp only [phi, List.filter_cons]
  by_cases h : t < x <;> simp [h, Nat.add_comm]

theorem phi_le_length (t : Int) (l : List Int) : phi t l ≤ l.length :=
  List.length_filter_le _ _

theorem phi_removeOne_of_not_lt {t m : Int} (h : ¬ t < m) (l : List Int) :
    phi t (removeOne m l) = phi t l := by
  induction l with
  | nil => rfl
  | cons x xs ih =>
    unfold removeOne
    by_cases hx : x = m
    · subst hx; simp [phi_cons, h]
    · simp [hx, phi_cons, ih]

theorem ite_one_zero_and_le (A B : Prop) [Decidable A] [Decidable B] :
    (if A ∧ B then (1 : Nat) else 0) ≤ if A then 1 else 0 := by
  by_cases hA : A
  · by_cases hB : B
    · simp [hA, hB]
    · simp [hA, hB]
  · simp [hA]

theorem phi_le_phi_removeOne_add_one (t m : Int) (l : List Int) :
    phi t l ≤ phi t (removeOne m l) + 1 := by
  induction l with
  | nil => simp [removeOne, phi]
  | cons x xs ih =>
    unfold removeOne
    by_cases hx : x = m
    · rw [if_pos hx, phi_cons]
      by_cases ht : t < x
      · rw [if_pos ht]; omega
      · rw [if_neg ht]; omega
    · rw [if_neg hx, phi_cons, phi_cons]
      by_cases ht : t < x
      · rw [if_pos ht]; omega
      · rw [if_neg ht]; omega

theorem windowCount_nil (t per : Int) : windowCount t per [] = 0 := rfl

theorem windowCount_cons (t per x : Int) (l : List Int) :
    windowCount t per (x :: l) =
      (if t < x ∧ x ≤ t + per then 1 else 0) + windowCount t per l := by
  simp only [windowCount, List.filter_cons]
  by_cases h : t < x ∧ x ≤ t + per <;> simp [h, Nat.add_comm]

theorem windowCount_eq_zero_of_neg {per : Int} (h : per < 0) (t : Int)
    (l : List Int) : windowCount t per l = 0 := by
  induction l with
  | nil => rfl
  | cons x xs ih =>
    rw [windowCount_cons, ih]
    have : ¬ (t < x ∧ x ≤ t + per) := by
      rintro ⟨h1, h2⟩
      omega
    simp [this]

/-! ### Lemmas about single-key operations -/

theorem use_key_fst (k : APIKey) (now : Int) : (k.use_key now).1 = k.key := rfl

theorem use_key_snd_key (k : APIKey) (now : Int) :
    ((k.use_key now).2).key = k.key := rfl

theorem use_key_snd_policy (k : APIKey) (now : Int) :
    ((k.use_key now).2).policy = k.policy := rfl

theorem use_key_snd_times (k : APIKey) (now : Int) :
    ((k.use_key now).2).times =
      now :: (if k.policy.count ≤ k.times.length then heapPop k.times
              else k.times) := rfl

/-- Characterization of `is_ready`: ready exactly when the quota is not yet
filled, or when some minimal (i.e. oldest) recorded time has left the
window. -/
theorem isReady_spec (k : APIKey) (now : Int) :
    k.is_ready now = true ↔
      (k.times.length < k.policy.count ∨
        ∃ m, m ∈ k.times ∧ (∀ x ∈ k.times, m ≤ x) ∧ m < now - k.policy.per) := by
  unfold APIKey.is_ready
  by_cases hlen : k.times.length < k.policy.count
  · simp [hlen]
  · rw [if_neg hlen]
    cases hp : heapPeek k.times with
    | none =>
      have ht := heapPeek_eq_none _ hp
      rw [ht] at hlen ⊢
      simp only [List.length_nil] at hlen
      simp [hlen]
    | some m =>
      simp only [decide_eq_true_eq]
      constructor
      · intro h
        exact Or.inr ⟨m, heapPeek_mem hp, heapPeek_le hp, h⟩
      · rintro (h | ⟨m', hm', hmin', hlt'⟩)
        · exact absurd h hlen
        · exact lt_of_le_of_lt (heapPeek_le hp m' hm') hlt'

theorem isReady_false_of_count_zero_empty {k : APIKey}
    (hc : k.policy.count = 0) (ht : k.times = []) (now : Int) :
    k.is_ready now = false := by
  unfold APIKey.is_ready
  simp [hc, ht, heapPeek]

/-- Size part of the atomic check-and-use step: a successful use keeps the
history within the quota bound. -/
theorem use_key_length_le {k : APIKey} (now : Int)
    (hsize : k.times.length ≤ k.policy.count)
    (hready : k.is_ready now = true) :
    ((k.use_key now).2).times.length ≤ k.policy.count := by
  rw [use_key_snd_times]
  by_cases hcap : k.policy.count ≤ k.times.length
  · cases hp : heapPeek k.times with
    | none =>
      exfalso
      have ht : k.times = [] := heapPeek_eq_none _ hp
      have hc0 : k.policy.count = 0 := by
        rw [ht] at hcap
        simpa using hcap
      rw [isReady_false_of_count_zero_empty hc0 ht] at hready
      exact Bool.false_ne_true hready
    | some m =>
      have hm := heapPeek_mem hp
      have hlr := length_removeOne hm
      rw [if_pos hcap]
      simp only [heapPop, hp, List.length_cons]
      omega
  · rw [if_neg hcap]
    simp only [List.length_cons]
    omega

/-- Window-counting part of the atomic check-and-use step: a successful use at
`now` increases the number of history entries above `t` by at least the
window indicator of `now`. -/
theorem use_key_phi {k : APIKey} (now t : Int)
    (hper : 0 ≤ k.policy.per)
    (hready : k.is_ready now = true) :
    phi t k.times + (if t < now ∧ now ≤ t + k.policy.per then 1 else 0) ≤
      phi t ((k.use_key now).2).times := by
  rw [use_key_snd_times]
  by_cases hcap : k.policy.count ≤ k.times.length
  · have hlen : ¬ k.times.length < k.policy.count := not_lt.mpr hcap
    unfold APIKey.is_ready at hready
    rw [if_neg hlen] at hready
    cases hp : heapPeek k.times with
    | none => simp [hp] at hready
    | some m =>
      rw [hp] at hready
      simp only [decide_eq_true_eq] at hready
      rw [if_pos hcap]
      simp only [heapPop, hp, phi_cons]
      by_cases hwin : now ≤ t + k.policy.per
      · have hmle : ¬ t < m := by omega
        rw [phi_removeOne_of_not_lt hmle]
        have h1 := ite_one_zero_and_le (t < now) (now ≤ t + k.policy.per)
        omega
      · have htn : t < now := by omega
        rw [if_neg (fun h => hwin h.2), if_pos htn]
        have h2 := phi_le_phi_removeOne_add_one t m k.times
        omega
  · rw [if_neg hcap, phi_cons]
    have h1 := ite_one_zero_and_le (t < now) (now ≤ t + k.policy.per)
    omega

/-! ### Quota correctness over serialized traces -/

theorem runPolls_quota_aux (nows : List Int) :
    ∀ (k : APIKey) (t : Int), 0 ≤ k.policy.per →
      k.times.length ≤ k.policy.count →
      windowCount t k.policy.per (runPolls k nows).2 + phi t k.times ≤
        k.policy.count := by
  induction nows with
  | nil =>
    intro k t _ hsize
    simp only [runPolls, windowCount_nil, Nat.zero_add]
    exact le_trans (phi_le_length t k.times) hsize
  | cons now rest ih =>
    intro k t hper hsize
    by_cases hr : k.is_ready now = true
    · have hstep := use_key_phi now t hper hr
      have hlen := use_key_length_le now hsize hr
      have hpol := use_key_snd_policy k now
      have ihk := ih (k.use_key now).2 t (by rw [hpol]; exact hper)
        (by rw [hpol]; exact hlen)
      rw [hpol] at ihk
      simp only [runPolls, hr, if_true, windowCount_cons]
      omega
    · have hr' : k.is_ready now = false := by
        cases h : k.is_ready now
        · rfl
        · exact absurd h hr
      simp only [runPolls, hr', Bool.false_eq_true, if_false]
      exact ih k t hper hsize

/-! ### Lemmas about the pool scan -/

theorem pollKeys_fst (ks : List APIKey) (now : Int) :
    (pollKeys ks now).1 =
      (ks.find? (fun k => k.is_ready now)).map APIKey.get_key := by
  induction ks with
  | nil => rfl
  | cons k rest ih =>
    by_cases hr : k.is_ready now = true
    · simp [pollKeys, hr, List.find?_cons, APIKey.get_key, use_key_fst]
    · have hr' : k.is_ready now = false := by
        cases h : k.is_ready now
        · rfl
        · exact absurd h hr
      simp [pollKeys, hr', List.find?_cons, ih]

theorem pollKeys_length (ks : List APIKey) (now : Int) :
    (pollKeys ks now).2.length = ks.length := by
  induction ks with
  | nil => rfl
  | cons k rest ih =>
    by_cases hr : k.is_ready now = true
    · simp [pollKeys, hr]
    · have hr' : k.is_ready now = false := by
        cases h : k.is_ready now
        · rfl
        · exact absurd h hr
      simp [pollKeys, hr', ih]

theorem pollKeys_snd_getElem? (ks : List APIKey) (now : Int) (i : Nat) :
    (pollKeys ks now).2[i]? =
      if firstReadyIdx ks now = some i then
        (ks[i]?).map (fun k => (k.use_key now).2)
      else
        ks[i]? := by
  induction ks generalizing i with
  | nil => simp [pollKeys, firstReadyIdx]
  | cons k rest ih =>
    by_cases hr : k.is_ready now = true
    · cases i with
      | zero => simp [pollKeys, hr, firstReadyIdx]
      | succ j => simp [pollKeys, hr, firstReadyIdx]
    · have hr' : k.is_ready now = false := by
        cases h : k.is_ready now
        · rfl
        · exact absurd h hr
      cases i with
      | zero =>
        cases hf : firstReadyIdx rest now with
        | none => simp [pollKeys, hr', firstReadyIdx, hf]
        | some j => simp [pollKeys, hr', firstReadyIdx, hf]
      | succ j =>
        cases hf : firstReadyIdx rest now with
        | none => simp [pollKeys, hr', firstReadyIdx, hf, ih]
        | some j' =>
          by_cases hj : j' = j
          · subst hj
            simp [pollKeys, hr', firstReadyIdx, hf, ih]
          · have : ¬ (firstReadyIdx rest now = some j) := by
              rw [hf]
              intro h
              exact hj (Option.some.inj h)
            simp [pollKeys, hr', firstReadyIdx, hf, hj, ih, this]

theorem firstReadyIdx_ready (ks : List APIKey) (now : Int) :
    ∀ i, firstReadyIdx ks now = some i →
      ∃ h : i < ks.length, (ks.get ⟨i, h⟩).is_ready now = true := by
  induction ks with
  | nil => intro i h; simp [firstReadyIdx] at h
  | cons k rest ih =>
    intro i h
    by_cases hr : k.is_ready now = true
    · simp [firstReadyIdx, hr] at h
      subst h
      exact ⟨Nat.succ_pos _, hr⟩
    · have hr' : k.is_ready now = false := by
        cases hc : k.is_ready now
        · rfl
        · exact absurd hc hr
      simp [firstReadyIdx, hr'] at h
      cases hf : firstReadyIdx rest now with
      | none => rw [hf] at h; simp at h
      | some j =>
        rw [hf] at h
        simp at h
        rcases ih j hf with ⟨hlt, hready⟩
        refine ⟨by simp; omega, ?_⟩
        have : i = j + 1 := h.symm
        subst this
        simpa using hready

theorem find?_eq_bind_firstReadyIdx (ks : List APIKey) (now : Int) :
    ks.find? (fun k => k.is_ready now) =
      (firstReadyIdx ks now).bind (fun i => ks[i]?) := by
  induction ks with
  | nil => rfl
  | cons k rest ih =>
    by_cases hr : k.is_ready now = true
    · simp [firstReadyIdx, hr, List.find?_cons]
    · have hr' : k.is_ready now = false := by
        cases h : k.is_ready now
        · rfl
        · exact absurd h hr
      cases hf : firstReadyIdx rest now with
      | none => simp [firstReadyIdx, hr', List.find?_cons, hf, hf ▸ ih]
      | some i => simp [firstReadyIdx, hr', List.find?_cons, hf, hf ▸ ih]

theorem pollKeys_all_not_ready (ks : List APIKey) (now : Int)
    (h : ∀ k ∈ ks, k.is_ready now = false) :
    pollKeys ks now = (none, ks) := by
  induction ks with
  | nil => rfl
  | cons k rest ih =>
    have hk := h k (List.mem_cons_self _ _)
    have hrest : ∀ k' ∈ rest, k'.is_ready now = false :=
      fun k' hk' => h k' (List.mem_cons_of_mem _ hk')
    simp [pollKeys, hk, ih hrest]

/-! ### Claim theorems -/

/-- C1: for every single key with policy `(count, per)`, the set of successful
check-and-use transactions is quota-correct: over any serialized trace of
`poll_for_key` rounds (the pool mutex is held for the whole scan, so all
interleavings serialize), no window `(t, t + per]` contains more than `count`
recorded uses; and each `poll_for_key` acts on each key either not at all or
as the single atomic step "ready? then use", never as separated check and
record. -/
theorem quota_correct (id : String) (pol : RateLimitPolicy) (nows : List Int)
    (t : Int) (p : APIKeyPool) (now : Int) (j : Nat) :
    windowCount t pol.per (runPolls (APIKey.new id pol) nows).2 ≤ pol.count ∧
    (((p.poll_for_key now).2).api_keys[j]? = p.api_keys[j]? ∨
      ∃ k, p.api_keys[j]? = some k ∧ k.is_ready now = true ∧
        ((p.poll_for_key now).2).api_keys[j]? = some ((k.use_key now).2)) := by
  constructor
  · by_cases hper : 0 ≤ pol.per
    · have h := runPolls_quota_aux nows (APIKey.new id pol) t hper
        (by simp [APIKey.new])
      simpa [APIKey.new, phi] using h
    · rw [windowCount_eq_zero_of_neg (by omega) t]
      exact Nat.zero_le _
  · have hsnd := pollKeys_snd_getElem? p.api_keys now j
    by_cases hf : firstReadyIdx p.api_keys now = some j
    · rcases firstReadyIdx_ready p.api_keys now j hf with ⟨hj, hready⟩
      refine Or.inr ⟨p.api_keys.get ⟨j, hj⟩, ?_, hready, ?_⟩
      · simp [List.getElem?_eq_getElem hj]
      · show (pollKeys p.api_keys now).2[j]? = _
        rw [hsnd, if_pos hf]
        simp [List.getElem?_eq_getElem hj]
    · refine Or.inl ?_
      show (pollKeys p.api_keys now).2[j]? = _
      rw [hsnd, if_neg hf]

/-- C2: `poll_for_key` scans the keys in insertion order and returns the
identifier of the first ready key; in particular in a pool `[k1, k2, k3]` it
returns `k1`'s identifier when `k1` is ready, and `k2`'s when `k1` is not
ready but `k2` is. -/
theorem poll_for_key_first_fit (p : APIKeyPool) (now : Int)
    (k1 k2 k3 : APIKey) :
    ((p.poll_for_key now).1 =
      (p.api_keys.find? (fun k => k.is_ready now)).map APIKey.get_key) ∧
    (k1.is_ready now = true →
      ((APIKeyPool.mk [k1, k2, k3]).poll_for_key now).1 = some k1.key) ∧
    (k1.is_ready now = false → k2.is_ready now = true →
      ((APIKeyPool.mk [k1, k2, k3]).poll_for_key now).1 = some k2.key) := by
  refine ⟨pollKeys_fst p.api_keys now, ?_, ?_⟩
  · intro h1
    show (pollKeys [k1, k2, k3] now).1 = some k1.key
    simp [pollKeys, h1, use_key_fst]
  · intro h1 h2
    show (pollKeys [k1, k2, k3] now).1 = some k2.key
    simp [pollKeys, h1, h2, use_key_fst]

/-- C2 witness: a concrete ready pool. -/
theorem poll_for_key_first_fit_witness :
    let pol : RateLimitPolicy := { count := 1, per := 2 }
    let kA : APIKey := { key := "A", policy := pol, times := [] }
    let kB : APIKey := { key := "B", policy := pol, times := [0] }
    let kC : APIKey := { key := "C", policy := pol, times := [] }
    kB.is_ready 1 = false ∧ kC.is_ready 1 = true ∧
      ((APIKeyPool.mk [kB, kC, kA]).poll_for_key 1).1 = some "C" := by
  refine ⟨by decide, by decide, ?_⟩
  exact (poll_for_key_first_fit (APIKeyPool.mk [])
    1 { key := "B", policy := { count := 1, per := 2 }, times := [0] }
      { key := "C", policy := { count := 1, per := 2 }, times := [] }
      { key := "A", policy := { count := 1, per := 2 }, times := [] }).2.2
    (by decide) (by decide)

/-- C3 counterexample: a key with `count = 0` and empty history is "at
capacity" (`size = count = 0`), yet `use_key` discards nothing (there is no
oldest timestamp; the pop of the empty heap is a no-op) and leaves the
history size at `1 ≠ count`.  (Such a key is unreachable through the public
interface: `is_ready` is always false for it, see C9.) -/
theorem use_key_at_capacity_cx :
    let k : APIKey := { key := "A", policy := { count := 0, per := 5 }, times := [] }
    k.times.length = k.policy.count ∧
    ((k.use_key 7).2).times.length ≠ k.policy.count ∧
    ((k.use_key 7).2).times = [7] := by
  exact ⟨rfl, by decide, rfl⟩

/-- C3 amended: on a key at capacity (history size = `count`) whose policy has
`count ≥ 1`, `use_key` discards exactly one occurrence of the chronologically
oldest recorded timestamp (the minimum of the multiset, independent of
insertion order), records exactly one new timestamp `now`, keeps the history
size at `count`, and returns the identifier unchanged. -/
theorem use_key_at_capacity (k : APIKey) (now : Int)
    (hcap : k.times.length = k.policy.count) (hpos : 1 ≤ k.policy.count) :
    ∃ m, heapPeek k.times = some m ∧ m ∈ k.times ∧ (∀ x ∈ k.times, m ≤ x) ∧
      (k.use_key now).1 = k.key ∧
      ((k.use_key now).2).times = now :: removeOne m k.times ∧
      ((k.use_key now).2).times.length = k.policy.count ∧
      ((k.use_key now).2).key = k.key := by
  cases hp : heapPeek k.times with
  | none =>
    exfalso
    have ht := heapPeek_eq_none _ hp
    rw [ht] at hcap
    simp at hcap
    omega
  | some m =>
    have hm := heapPeek_mem hp
    have hlr := length_removeOne hm
    have hle : k.policy.count ≤ k.times.length := le_of_eq hcap.symm
    refine ⟨m, rfl, hm, heapPeek_le hp, rfl, ?_, ?_, rfl⟩
    · rw [use_key_snd_times, if_pos hle]
      simp [heapPop, hp]
    · rw [use_key_snd_times, if_pos hle]
      simp only [heapPop, hp, List.length_cons]
      omega

/-- C3 witness: a key at capacity whose timestamps were inserted out of
chronological order; the minimum (3) is the one evicted. -/
theorem use_key_at_capacity_witness :
    ([5, 3] : List Int).length = 2 ∧ (1 : Nat) ≤ 2 ∧
    (∃ m, heapPeek ([5, 3] : List Int) = some m ∧ m ∈ ([5, 3] : List Int) ∧
      (∀ x ∈ ([5, 3] : List Int), m ≤ x) ∧
      (({ key := "A", policy := { count := 2, per := 10 },
          times := [5, 3] } : APIKey).use_key 20).1 = "A" ∧
      ((({ key := "A", policy := { count := 2, per := 10 },
            times := [5, 3] } : APIKey).use_key 20).2).times =
        20 :: removeOne m [5, 3] ∧
      ((({ key := "A", policy := { count := 2, per := 10 },
            times := [5, 3] } : APIKey).use_key 20).2).times.length = 2 ∧
      ((({ key := "A", policy := { count := 2, per := 10 },
            times := [5, 3] } : APIKey).use_key 20).2).key = "A") :=
  ⟨by decide, by decide,
    use_key_at_capacity
      { key := "A", policy := { count := 2, per := 10 }, times := [5, 3] }
      20 (by decide) (by decide)⟩

/-- C4: `is_ready` holds exactly when the history size is strictly below
`count`, or some oldest (minimal) recorded timestamp is older than
`now - per`. -/
theorem is_ready_characterization (k : APIKey) (now : Int) :
    k.is_ready now = true ↔
      (k.times.length < k.policy.count ∨
        ∃ m, m ∈ k.times ∧ (∀ x ∈ k.times, m ≤ x) ∧
          m < now - k.policy.per) :=
  isReady_spec k now

/-- C5: a pool in which no key is ready — in particular the empty pool —
reports no key available and is left completely unchanged. -/
theorem poll_exhausted_returns_none (p : APIKeyPool) (now : Int)
    (h : ∀ k ∈ p.api_keys, k.is_ready now = false) :
    p.poll_for_key now = (none, p) := by
  unfold APIKeyPool.poll_for_key
  rw [pollKeys_all_not_ready p.api_keys now h]

/-- C5 witness: the empty pool, and a one-key pool whose key is exhausted at
the polling instant. -/
theorem poll_exhausted_returns_none_witness :
    let kA : APIKey := { key := "A", policy := { count := 1, per := 10 }, times := [100] }
    (APIKeyPool.new.poll_for_key 0 = (none, APIKeyPool.new)) ∧
    ((APIKeyPool.mk [kA]).poll_for_key 105 = (none, APIKeyPool.mk [kA])) := by
  exact ⟨poll_exhausted_returns_none APIKeyPool.new 0 (by simp [APIKeyPool.new]),
    poll_exhausted_returns_none (APIKeyPool.mk
      [{ key := "A", policy := { count := 1, per := 10 }, times := [100] }]) 105 (by decide)⟩

/-- C6 counterexample: constructing a policy with `count = 0` and negative
`per` succeeds and stores the invalid values verbatim — nothing is rejected
or clamped. -/
theorem policy_new_accepts_invalid :
    (RateLimitPolicy.new 0 (-1)).count = 0 ∧
    (RateLimitPolicy.new 0 (-1)).per = -1 :=
  ⟨rfl, rfl⟩

/-- C6 amended: `RateLimitPolicy::new` performs no validation at all; every
`count` (including 0) and every `per` (including non-positive durations) is
accepted and stored verbatim, validity being only a documented caller
precondition. -/
theorem policy_new_stores_verbatim (count : Nat) (per : Int) :
    (RateLimitPolicy.new count per).count = count ∧
    (RateLimitPolicy.new count per).per = per :=
  ⟨rfl, rfl⟩

/-- Raw `use_key` (no readiness check) keeps the history size within a
positive quota bound. -/
theorem use_key_length_le_raw {k : APIKey} (now : Int)
    (hpos : 1 ≤ k.policy.count) (hsize : k.times.length ≤ k.policy.count) :
    ((k.use_key now).2).times.length ≤ k.policy.count := by
  rw [use_key_snd_times]
  by_cases hcap : k.policy.count ≤ k.times.length
  · cases hp : heapPeek k.times with
    | none =>
      exfalso
      have ht := heapPeek_eq_none _ hp
      rw [ht] at hcap
      simp at hcap
      omega
    | some m =>
      have hlr := length_removeOne (heapPeek_mem hp)
      rw [if_pos hcap]
      simp only [heapPop, hp, List.length_cons]
      omega
  · rw [if_neg hcap]
    simp only [List.length_cons]
    omega

theorem iterUses_length_le (nows : List Int) :
    ∀ k : APIKey, 1 ≤ k.policy.count → k.times.length ≤ k.policy.count →
      (iterUses k nows).times.length ≤ k.policy.count := by
  induction nows with
  | nil => intro k _ h; exact h
  | cons now rest ih =>
    intro k hpos hsize
    have hpol := use_key_snd_policy k now
    have h := ih (k.use_key now).2 (by rw [hpol]; exact hpos)
      (by rw [hpol]; exact use_key_length_le_raw now hpos hsize)
    rw [hpol] at h
    exact h

/-- C7: for a key constructed with a policy whose `count ≥ 1`, the invariant
`times.length ≤ policy.count` holds after construction and after every
sequence of `use_key` calls. -/
theorem history_size_invariant (id : String) (pol : RateLimitPolicy)
    (nows : List Int) (hpos : 1 ≤ pol.count) :
    (APIKey.new id pol).times.length ≤ pol.count ∧
    (iterUses (APIKey.new id pol) nows).times.length ≤ pol.count :=
  ⟨by simp [APIKey.new], iterUses_length_le nows (APIKey.new id pol) hpos
    (by simp [APIKey.new])⟩

/-- C7 witness: four consecutive uses on a `count = 2` key never push the
history above two entries. -/
theorem history_size_invariant_witness :
    (1 : Nat) ≤ 2 ∧
    ((APIKey.new "A" { count := 2, per := 10 }).times.length ≤ 2 ∧
      (iterUses (APIKey.new "A" { count := 2, per := 10 })
        [1, 2, 3, 4]).times.length ≤ 2) :=
  ⟨by decide,
    history_size_invariant "A" { count := 2, per := 10 } [1, 2, 3, 4] (by decide)⟩

/-- C8: readiness is monotone in time for a fixed usage history — a ready key
stays ready at every later instant until a use is recorded. -/
theorem is_ready_monotone (k : APIKey) (t t' : Int)
    (h : k.is_ready t = true) (hle : t ≤ t') : k.is_ready t' = true := by
  rw [isReady_spec] at h ⊢
  rcases h with h | ⟨m, hm, hmin, hlt⟩
  · exact Or.inl h
  · exact Or.inr ⟨m, hm, hmin, by omega⟩

/-- C8 witness: a saturated key that is ready at time 3 is still ready at
time 5. -/
theorem is_ready_monotone_witness :
    let k : APIKey := { key := "A", policy := { count := 1, per := 2 }, times := [0] }
    k.is_ready 3 = true ∧ (3 : Int) ≤ 5 ∧ k.is_ready 5 = true := by
  refine ⟨by decide, by decide, ?_⟩
  exact is_ready_monotone
    { key := "A", policy := { count := 1, per := 2 }, times := [0] }
    3 5 (by decide) (by decide)

/-- One `poll_for_key` step never selects a key that is not ready at that
instant: the key is left unchanged, the identifiers of all slots are
preserved, and (when its identifier is distinct from the other keys') its
identifier is not returned. -/
theorem poll_step_skips_blocked (p : APIKeyPool) (now : Int) (j : Nat)
    (kJ : APIKey) (hkj : p.api_keys[j]? = some kJ)
    (hnotready : kJ.is_ready now = false)
    (hdistinct : ∀ i, i < p.api_keys.length → i ≠ j →
      (p.api_keys[i]?).map (fun k => k.key) ≠ some kJ.key) :
    ((p.poll_for_key now).2).api_keys[j]? = some kJ ∧
    (∀ i, i < ((p.poll_for_key now).2).api_keys.length → i ≠ j →
      (((p.poll_for_key now).2).api_keys[i]?).map (fun k => k.key) ≠
        some kJ.key) ∧
    (p.poll_for_key now).1 ≠ some kJ.key := by
  have hfne : ¬ firstReadyIdx p.api_keys now = some j := by
    intro hf
    rcases firstReadyIdx_ready p.api_keys now j hf with ⟨h', hr⟩
    have hget : p.api_keys[j]? = some (p.api_keys.get ⟨j, h'⟩) := by
      rw [List.getElem?_eq_getElem h']
      simp [List.get_eq_getElem]
    rw [hkj] at hget
    rw [← Option.some.inj hget, hnotready] at hr
    exact Bool.false_ne_true hr
  refine ⟨?_, ?_, ?_⟩
  · show (pollKeys p.api_keys now).2[j]? = some kJ
    rw [pollKeys_snd_getElem?, if_neg hfne, hkj]
  · intro i hlen hij
    have hlen' : i < p.api_keys.length := by
      rw [← pollKeys_length p.api_keys now]
      exact hlen
    show ((pollKeys p.api_keys now).2[i]?).map (fun k => k.key) ≠ some kJ.key
    rw [pollKeys_snd_getElem?]
    by_cases hf : firstReadyIdx p.api_keys now = some i
    · rw [if_pos hf]
      cases hgi : p.api_keys[i]? with
      | none => simp
      | some k0 =>
        have hd := hdistinct i hlen' hij
        rw [hgi] at hd
        simp only [Option.map_some'] at hd ⊢
        simpa [use_key_snd_key] using hd
    · rw [if_neg hf]
      exact hdistinct i hlen' hij
  · intro heq
    have hfst : (pollKeys p.api_keys now).1 =
        (p.api_keys.find? (fun k => k.is_ready now)).map APIKey.get_key :=
      pollKeys_fst p.api_keys now
    have heq' : (p.api_keys.find? (fun k => k.is_ready now)).map APIKey.get_key =
        some kJ.key := by
      rw [← hfst]; exact heq
    cases hfind : p.api_keys.find? (fun k => k.is_ready now) with
    | none => rw [hfind] at heq'; exact Option.noConfusion heq'
    | some k0 =>
      rw [hfind] at heq'
      have hk0key : k0.key = kJ.key := by
        simpa [APIKey.get_key] using heq'
      have hk0ready : k0.is_ready now = true := by
        have := List.find?_some hfind
        simpa using this
      have hk0mem : k0 ∈ p.api_keys := List.mem_of_find?_eq_some hfind
      rcases List.mem_iff_get.mp hk0mem with ⟨n, hn⟩
      have hgn : p.api_keys[(n : Nat)]? = some k0 := by
        rw [List.getElem?_eq_getElem n.isLt]
        rw [← hn]
        simp [List.get_eq_getElem]
      by_cases hnj : (n : Nat) = j
      · rw [hnj, hkj] at hgn
        rw [← Option.some.inj hgn, hnotready] at hk0ready
        exact Bool.false_ne_true hk0ready
      · have hd := hdistinct (n : Nat) n.isLt hnj
        rw [hgn] at hd
        simp only [Option.map_some'] at hd
        exact hd (by rw [hk0key])

/-- C9: a key built with `count = 0` is never ready — the size check `0 < 0`
fails and the peek of its empty heap yields nothing — and through the public
interface such a key (with its empty history) is never selected by any
sequence of `poll_for_key` calls: its slot is unchanged, and (its identifier
being distinct from the other keys') its identifier is never among the
results. -/
theorem count_zero_key_never_polled (id : String) (per t : Int)
    (nows : List Int) (p : APIKeyPool) (j : Nat) (kJ : APIKey)
    (hkj : p.api_keys[j]? = some kJ)
    (hcount : kJ.policy.count = 0) (htimes : kJ.times = [])
    (hdistinct : ∀ i, i < p.api_keys.length → i ≠ j →
      (p.api_keys[i]?).map (fun k => k.key) ≠ some kJ.key) :
    (APIKey.new id (RateLimitPolicy.new 0 per)).is_ready t = false ∧
    (runPoolPolls p nows).api_keys[j]? = some kJ ∧
    some kJ.key ∉ runPoolResults p nows := by
  have main : ∀ (ns : List Int) (q : APIKeyPool),
      q.api_keys[j]? = some kJ →
      (∀ i, i < q.api_keys.length → i ≠ j →
        (q.api_keys[i]?).map (fun k => k.key) ≠ some kJ.key) →
      (runPoolPolls q ns).api_keys[j]? = some kJ ∧
      some kJ.key ∉ runPoolResults q ns := by
    intro ns
    induction ns with
    | nil =>
      intro q hk _
      exact ⟨hk, by simp [runPoolResults]⟩
    | cons now rest ih =>
      intro q hk hd
      rcases poll_step_skips_blocked q now j kJ hk
        (isReady_false_of_count_zero_empty hcount htimes now) hd with
        ⟨ha, hb, hc⟩
      rcases ih (q.poll_for_key now).2 ha hb with ⟨h1, h2⟩
      refine ⟨h1, ?_⟩
      intro hmem
      simp only [runPoolResults, List.mem_cons] at hmem
      rcases hmem with hmem | hmem
      · exact hc hmem.symm
      · exact h2 hmem
  rcases main nows p hkj hdistinct with ⟨h1, h2⟩
  exact ⟨isReady_false_of_count_zero_empty rfl rfl t, h1, h2⟩

/-- C9 witness: a two-key pool whose second key has `count = 0`; three
consecutive polls leave the `count = 0` key untouched and never return its
identifier. -/
theorem count_zero_key_never_polled_witness :
    let kZ : APIKey := { key := "Z", policy := { count := 0, per := 5 }, times := [] }
    let P : APIKeyPool :=
      APIKeyPool.mk [{ key := "A", policy := { count := 1, per := 10 }, times := [] }, kZ]
    (APIKey.new "X" (RateLimitPolicy.new 0 5)).is_ready 100 = false ∧
    (runPoolPolls P [100, 101, 102]).api_keys[1]? = some kZ ∧
    some "Z" ∉ runPoolResults P [100, 101, 102] := by
  exact count_zero_key_never_polled "X" 5 100 [100, 101, 102]
    (APIKeyPool.mk [{ key := "A", policy := { count := 1, per := 10 }, times := [] },
                    { key := "Z", policy := { count := 0, per := 5 }, times := [] }])
    1 { key := "Z", policy := { count := 0, per := 5 }, times := [] }
    (by decide) (by decide) (by decide) (by decide)

/-- C10: one `poll_for_key` call mutates at most one key: the sequence keeps
its length and order, the entry at index `i` is rewritten by `use_key` exactly
when `i` is the selected (first ready) index and is untouched otherwise,
`use_key` changes nothing but the usage history, and a `none` result leaves
the pool exactly as it was. -/
theorem poll_frame (p : APIKeyPool) (now : Int) (i : Nat) :
    ((p.poll_for_key now).2).api_keys.length = p.api_keys.length ∧
    ((p.poll_for_key now).2).api_keys[i]? =
      (if firstReadyIdx p.api_keys now = some i then
        (p.api_keys[i]?).map (fun k => (k.use_key now).2)
      else p.api_keys[i]?) ∧
    (∀ k : APIKey, ((k.use_key now).2).key = k.key ∧
      ((k.use_key now).2).policy = k.policy) ∧
    ((p.poll_for_key now).1 =
      (firstReadyIdx p.api_keys now).bind
        (fun i2 => (p.api_keys[i2]?).map APIKey.get_key)) ∧
    ((p.poll_for_key now).1 = none → (p.poll_for_key now).2 = p) := by
  refine ⟨pollKeys_length p.api_keys now, pollKeys_snd_getElem? p.api_keys now i,
    fun k => ⟨rfl, rfl⟩, ?_, ?_⟩
  · show (pollKeys p.api_keys now).1 = _
    rw [pollKeys_fst, find?_eq_bind_firstReadyIdx]
    cases firstReadyIdx p.api_keys now with
    | none => rfl
    | some i2 => simp [Option.map_map]
  intro hnone
  have hfst : (pollKeys p.api_keys now).1 =
      (p.api_keys.find? (fun k => k.is_ready now)).map APIKey.get_key :=
    pollKeys_fst p.api_keys now
  have hfind : p.api_keys.find? (fun k => k.is_ready now) = none := by
    have h : (p.api_keys.find? (fun k => k.is_ready now)).map APIKey.get_key = none := by
      rw [← hfst]; exact hnone
    exact Option.map_eq_none.mp h
  have hall : ∀ k ∈ p.api_keys, k.is_ready now = false := by
    intro k hk
    have := List.find?_eq_none.mp hfind k hk
    simpa using this
  have hpoll := pollKeys_all_not_ready p.api_keys now hall
  show ({ api_keys := (pollKeys p.api_keys now).2 } : APIKeyPool) = p
  rw [hpoll]

/-- C10 witness: a one-key pool with an exhausted key — the poll returns
`none` and leaves the pool unchanged, with all frame facts instantiated. -/
theorem poll_frame_witness :
    let P : APIKeyPool :=
      APIKeyPool.mk [{ key := "A", policy := { count := 1, per := 10 }, times := [100] }]
    ((P.poll_for_key 105).2).api_keys.length = P.api_keys.length ∧
    ((P.poll_for_key 105).2).api_keys[0]? =
      (if firstReadyIdx P.api_keys 105 = some 0 then
        (P.api_keys[0]?).map (fun k => (k.use_key 105).2)
      else P.api_keys[0]?) ∧
    (∀ k : APIKey, ((k.use_key 105).2).key = k.key ∧
      ((k.use_key 105).2).policy = k.policy) ∧
    ((P.poll_for_key 105).1 =
      (firstReadyIdx P.api_keys 105).bind
        (fun i2 => (P.api_keys[i2]?).map APIKey.get_key)) ∧
    ((P.poll_for_key 105).1 = none → (P.poll_for_key 105).2 = P) := by
  exact poll_frame
    (APIKeyPool.mk [{ key := "A", policy := { count := 1, per := 10 }, times := [100] }])
    105 0

end APIKeyPoolRs
